import Mathlib

/-!
Shallow embedding of the HFTNN core (hftnn.ts, math.ts, util.ts) and proofs
about it.

Modelling conventions:
* A JavaScript number slot is `JsVal := Option ℝ`.  `some x` is an ordinary
  (finite) float modelled as a real; `none` models `undefined` as well as the
  `NaN` values that arithmetic on `undefined` produces (reading a hole of a
  JS array, reading past the end of an array).  Arithmetic on `none` yields
  `none`, mirroring NaN/undefined propagation.
* The external FFT kernel (fft.js) is not part of the repository.  It is
  modelled as an abstract `FFTKernel`: a pair of functions giving the final
  contents of the output buffer of `realTransform` / `inverseTransform`.
  The contract (spec §6) that the buffer holds `2 × size` interleaved values
  appears as an explicit hypothesis where a proof needs it.
* In-place mutation (window application, `signal.length = n` extension) is
  modelled by explicit state passing: functions return the final contents of
  the buffers they mutate.
* The per-call magnitude/phase memo cache of `hftnnForward` is semantically
  transparent (it caches a pure computation), so the embedding recomputes
  the polar form at each use.
-/

/-- A JavaScript number slot: `none` models `undefined`/`NaN`. -/
abbrev JsVal : Type := Option ℝ

/-- JS multiplication; `undefined`/`NaN` operands poison the result. -/
def jsMul : JsVal → JsVal → JsVal
  | some a, some b => some (a * b)
  | _, _ => none

/-- JS addition; `undefined`/`NaN` operands poison the result. -/
def jsAdd : JsVal → JsVal → JsVal
  | some a, some b => some (a + b)
  | _, _ => none

/-- `Math.sqrt` (only ever applied to sums of squares in this code base). -/
noncomputable def jsSqrt : JsVal → JsVal
  | some a => some (Real.sqrt a)
  | none => none

/-- `Math.cos`. -/
noncomputable def jsCos : JsVal → JsVal
  | some a => some (Real.cos a)
  | none => none

/-- `Math.sin`. -/
noncomputable def jsSin : JsVal → JsVal
  | some a => some (Real.sin a)
  | none => none

/-- `Math.atan2(im, re)`: the argument of the complex number `re + im·i`;
`Complex.arg` agrees with `atan2` on every input, including `arg 0 = 0 =
atan2(0, 0)`. -/
noncomputable def jsAtan2 : JsVal → JsVal → JsVal
  | some im, some re => some (Complex.arg ⟨re, im⟩)
  | _, _ => none

/-- Reading `l[i]` in JS: out-of-range (or negative) indices give
`undefined`. -/
def jsIndex (l : List JsVal) (i : ℤ) : JsVal :=
  if h : 0 ≤ i ∧ i.toNat < l.length then l.get ⟨i.toNat, h.2⟩ else none

/-- Writing `l[i] = v` in JS: a negative index only creates an object
property (the array is unchanged); an index past the end extends the array
with holes (`undefined`). -/
def jsSet (l : List JsVal) (i : ℤ) (v : JsVal) : List JsVal :=
  if i < 0 then l
  else if i.toNat < l.length then l.set i.toNat v
  else l ++ List.replicate (i.toNat - l.length) none ++ [v]

/-- `Math.round` for the (finite) arguments used here: round half away from
zero upward, `⌊x + 1/2⌋`. -/
noncomputable def jsRound (x : ℝ) : ℤ := ⌊x + 1/2⌋

/-- `arr.length = n` on a JS array: truncates, or extends with holes
(`undefined`). -/
def jsSetLength (l : List JsVal) (n : ℕ) : List JsVal :=
  l.take n ++ List.replicate (n - l.length) none

/-! ### util.ts -/

/-- `step(array, step)` from util.ts: returns a copy of `array` selecting
every `step`-th element.  Only `step = 1` (a plain copy) is exercised by the
core.  (For `s = 0` the source would not terminate; the embedding returns
`[]` there.) -/
def step (l : List JsVal) (s : ℕ) : List JsVal :=
  if s = 1 then l
  else if s = 0 then []
  else (List.range ((l.length + s - 1) / s)).map (fun j => jsIndex l (j * s))

/-! ### math.ts -/

/-- `magnitudePhaseToComplex`: polar to rectangular, `[cos(phase)·magnitude,
sin(phase)·magnitude]`. -/
noncomputable def magnitudePhaseToComplex (magnitude phase : JsVal) : JsVal × JsVal :=
  (jsMul (jsCos phase) magnitude, jsMul (jsSin phase) magnitude)

/-- `isPowerOfTwo(v)`: `v > 1 && !(v & (v - 1))`. -/
def isPowerOfTwo (v : ℕ) : Bool :=
  decide (1 < v) && (v &&& (v - 1) == 0)

/-- `lerp(v0, v1, t) = (1 - t)·v0 + t·v1`, on JS values. -/
def jsLerp (v0 v1 : JsVal) (t : ℝ) : JsVal :=
  jsAdd (jsMul (some (1 - t)) v0) (jsMul (some t) v1)

/-- `fftBinToMagnitudePhase(re, im) = (√(re² + im²), atan2(im, re))`. -/
noncomputable def fftBinToMagnitudePhase (re im : JsVal) : JsVal × JsVal :=
  (jsSqrt (jsAdd (jsMul re re) (jsMul im im)), jsAtan2 im re)

/-- `freqToFftBin(freq, sampleRate, signalLength) =
round(freq · signalLength / sampleRate)`. -/
noncomputable def freqToFftBin (freq sampleRate : ℝ) (signalLength : ℕ) : ℤ :=
  jsRound (freq * signalLength / sampleRate)

/-- The multiplier curve of `CosineWindow(length)`: `sin(π·i/(length-1))`
for `i < length`.  For `length = 1` the source divides by zero and stores
`NaN`, modelled as `none`. -/
noncomputable def cosineWindow (length : ℕ) : List JsVal :=
  (List.range length).map
    (fun (i : ℕ) =>
      if length = 1 then none
      else some (Real.sin (Real.pi * (i : ℝ) / ((length : ℝ) - 1))))

/-- `CosineWindow.apply(signal)`: multiply `signal[i]` by `multiplier[i]`
for `i < min(len(signal), window length)`, in place.  The returned list is
the final contents of `signal`. -/
def applyWindow (multipliers : List JsVal) (signal : List JsVal) : List JsVal :=
  List.zipWith jsMul signal multipliers ++ signal.drop multipliers.length

/-- `createComplexArray(size)`: `2·size` interleaved slots, zero-filled. -/
def createComplexArray (size : ℕ) : List JsVal :=
  List.replicate (2 * size) (some 0)

/-! ### hftnn.ts : data model -/

/-- `intervalToFreq(x, fundamental, intervalsInOctave) =
fundamental · 2^(x / intervalsInOctave)`. -/
noncomputable def intervalToFreq (x fundamental intervalsInOctave : ℝ) : ℝ :=
  fundamental * (2 : ℝ) ^ (x / intervalsInOctave)

/-- `HFTNNProperties` (hftnn.ts).  Integer-valued fields are modelled as
`ℕ`, the real-valued rates as `ℝ`. -/
structure HFTNNProperties where
  sampleRate : ℝ
  fundamental : ℝ
  frequenciesInOctave : ℕ
  octaveRange : ℕ
  extraBins : ℕ
  interpolatedChunks : ℕ
  dftSize : ℕ

/-- The validity conditions the spec (§3) puts on `HFTNNProperties`. -/
def ValidProps (p : HFTNNProperties) : Prop :=
  0 < p.sampleRate ∧ 0 < p.fundamental ∧ 0 < p.frequenciesInOctave ∧
    0 < p.octaveRange ∧ isPowerOfTwo p.dftSize = true

/-- The external FFT kernel (fft.js), abstracted: each function returns the
final contents of the output buffer passed to it. -/
structure FFTKernel where
  realTransform : ℕ → List JsVal → List JsVal
  inverseTransform : ℕ → List JsVal → List JsVal

/-- A harmonic frame: the `[magnitude, phase]` pairs of `hftnnForward`. -/
abbrev Frame : Type := List (JsVal × JsVal)

/-! ### hftnn.ts : forward frame transform -/

/-- The absolute bin index of harmonic interval `j`:
`freqToFftBin(intervalToFreq(j, fundamental, frequenciesInOctave),
sampleRate, signalLength)`. -/
noncomputable def binIndexOf (p : HFTNNProperties) (signalLength : ℕ) (j : ℕ) : ℤ :=
  freqToFftBin (intervalToFreq j p.fundamental p.frequenciesInOctave) p.sampleRate signalLength

/-- Reading bin `idx` of the interleaved spectrum `t` and converting it to
polar form (the body of `computeBinIfNecessary` plus the push). -/
noncomputable def readBin (t : List JsVal) (idx : ℤ) : JsVal × JsVal :=
  fftBinToMagnitudePhase (jsIndex t (2 * idx)) (jsIndex t (2 * idx + 1))

/-- The `2·extraBins + 1` entries `hftnnForward` emits for harmonic interval
`j`: `extraBins` low neighbours (guarded only by `idx < 0`), the centre bin
(unguarded), and `extraBins` high neighbours (guarded only by
`idx ≥ bins.length`, where `bins.length = transform.length / 2`). -/
noncomputable def emitInterval (t : List JsVal) (signalLength : ℕ) (p : HFTNNProperties)
    (j : ℕ) : Frame :=
  let binIdx := binIndexOf p signalLength j
  let binsLen : ℤ := (t.length / 2 : ℕ)
  ((List.range p.extraBins).map
      (fun (k : ℕ) =>
        let idx := binIdx - p.extraBins + (k : ℤ)
        if idx < 0 then ((some 0), (some 0)) else readBin t idx))
    ++ [readBin t binIdx]
    ++ ((List.range p.extraBins).map
      (fun (k : ℕ) =>
        let idx := binIdx + 1 + (k : ℤ)
        if binsLen ≤ idx then ((some 0), (some 0)) else readBin t idx))

/-- The body of `hftnnForward` after validation.  Returns the frame together
with the final contents of the (destructively windowed) `signal` argument.
The nested `oct`/`i` loops of the source step the interval counter `j`
through `0, 1, …, octaveRange·frequenciesInOctave − 1`, which is embedded as
a `flatMap` over that range. -/
noncomputable def hftnnForwardCore (K : FFTKernel) (signal : List JsVal)
    (p : HFTNNProperties) (forwardWindow : Option (List JsVal)) : Frame × List JsVal :=
  let multipliers :=
    match forwardWindow with
    | some w => if w.length = signal.length then w else cosineWindow signal.length
    | none => cosineWindow signal.length
  let windowed := applyWindow multipliers signal
  let transform := K.realTransform p.dftSize windowed
  ((List.range (p.octaveRange * p.frequenciesInOctave)).flatMap
      (fun j => emitInterval transform signal.length p j),
   windowed)

/-- `hftnnForward(signal, properties, forwardWindow?)` with its validation:
`signal`/`properties` are `Option`s so that an absent (`undefined`) argument
is representable; a thrown `Error` is `Except.error` of its message. -/
noncomputable def hftnnForwardChecked (K : FFTKernel) (signal : Option (List JsVal))
    (properties : Option HFTNNProperties) (forwardWindow : Option (List JsVal)) :
    Except String (Frame × List JsVal) :=
  match signal with
  | none => .error "No signal has been specified."
  | some s =>
    if isPowerOfTwo s.length then
      match properties with
      | none => .error "No properties have been given."
      | some p => .ok (hftnnForwardCore K s p forwardWindow)
    else .error "The given signals length must be a power of two and higher than 1."

/-! ### hftnn.ts : temporal chunker -/

/-- One chunk of the chunking loop: `signal.slice(i, i + n)`, then
`chunk.length = n` and `chunk.fill(0, chunkLen)` — an explicit right
zero-padding to length `n`. -/
def mkChunk (signal : List JsVal) (i n : ℕ) : List JsVal :=
  let chunk := (signal.drop i).take n
  chunk ++ List.replicate (n - chunk.length) (some 0)

/-- The chunking loop of `hftnnForwardTemporal`: start offsets
`i = 0, hop, 2·hop, …` with `hop = dftSize / 2`, while `i < length(signal)`;
a chunk is processed when `j == 0 || i >= length(signal) + hop`; `j` is then
incremented and reset to `0` once it exceeds `interpolatedChunks`.  The
`0 < hop` guard makes the embedding total; for `hop = 0` the source loop
would not terminate (valid properties give `hop ≥ 1`). -/
noncomputable def chunkLoop (K : FFTKernel) (p : HFTNNProperties) (forwardWindow : List JsVal)
    (signal : List JsVal) (i j : ℕ) : Except String (List Frame) :=
  if h : i < signal.length ∧ 0 < p.dftSize / 2 then
    if j = 0 ∨ signal.length + p.dftSize / 2 ≤ i then
      match hftnnForwardChecked K (some (mkChunk signal i p.dftSize)) (some p)
          (some forwardWindow) with
      | .ok fr =>
        match chunkLoop K p forwardWindow signal (i + p.dftSize / 2)
            (if p.interpolatedChunks < j + 1 then 0 else j + 1) with
        | .ok frames => .ok (fr.1 :: frames)
        | .error e => .error e
      | .error e => .error e
    else
      chunkLoop K p forwardWindow signal (i + p.dftSize / 2)
        (if p.interpolatedChunks < j + 1 then 0 else j + 1)
  else .ok []
termination_by signal.length - i
decreasing_by all_goals omega

/-- The same loop with the second disjunct of the processing condition
removed, written from the spec's description ("a frame is processed only
when `j == 0`"); used to show the disjunct is dead. -/
noncomputable def chunkLoopNoLateGuard (K : FFTKernel) (p : HFTNNProperties)
    (forwardWindow : List JsVal) (signal : List JsVal) (i j : ℕ) :
    Except String (List Frame) :=
  if h : i < signal.length ∧ 0 < p.dftSize / 2 then
    if j = 0 then
      match hftnnForwardChecked K (some (mkChunk signal i p.dftSize)) (some p)
          (some forwardWindow) with
      | .ok fr =>
        match chunkLoopNoLateGuard K p forwardWindow signal (i + p.dftSize / 2)
            (if p.interpolatedChunks < j + 1 then 0 else j + 1) with
        | .ok frames => .ok (fr.1 :: frames)
        | .error e => .error e
      | .error e => .error e
    else
      chunkLoopNoLateGuard K p forwardWindow signal (i + p.dftSize / 2)
        (if p.interpolatedChunks < j + 1 then 0 else j + 1)
  else .ok []
termination_by signal.length - i
decreasing_by all_goals omega

/-- `hftnnForwardTemporal(signal, properties)`.  Besides the list of frames
it returns the final contents of the caller's `signal` array: in the short
branch the source sets `signal.length = dftSize` (holes, no zero fill) and
`hftnnForward` then windows that very array in place; in the chunked branch
every processed frame works on a fresh `slice` and the caller's array is
untouched. -/
noncomputable def hftnnForwardTemporal (K : FFTKernel) (signal : List JsVal)
    (p : HFTNNProperties) : Except String (List Frame × List JsVal) :=
  if signal.length < p.dftSize then
    match hftnnForwardChecked K (some (jsSetLength signal p.dftSize)) (some p) none with
    | .ok fr => .ok ([fr.1], fr.2)
    | .error e => .error e
  else
    match chunkLoop K p (cosineWindow p.dftSize) signal 0 0 with
    | .ok frames => .ok (frames, signal)
    | .error e => .error e

/-! ### hftnn.ts : inverse frame transform -/

/-- Scatter one `[magnitude, phase]` entry into the interleaved spectrum at
absolute bin `binIdx`: `bins[binIdx·2] = re; bins[binIdx·2 + 1] = im`. -/
noncomputable def writeBin (bins : List JsVal) (binIdx : ℤ) (entry : JsVal × JsVal) :
    List JsVal :=
  let complex := magnitudePhaseToComplex entry.1 entry.2
  jsSet (jsSet bins (2 * binIdx) complex.1) (2 * binIdx + 1) complex.2

/-- The `while (i < hft.length)` scatter loop of `hftnnInverse`: per
interval it consumes `extraBins` low entries (bins `baseBin − extraBins …
baseBin − 1`), the centre entry, then `extraBins` high entries.  When fewer
than `2·extraBins + 1` entries remain, the source reads `hft[i]` past the
end and throws a `TypeError` (`undefined[0]`), embedded as an error. -/
noncomputable def scatterLoop (p : HFTNNProperties) (bins : List JsVal) (hft : Frame)
    (interval : ℕ) : Except String (List JsVal) :=
  if hft.isEmpty then .ok bins
  else if h : 2 * p.extraBins + 1 ≤ hft.length then
    let baseBin := binIndexOf p p.dftSize interval
    let bins1 := (List.range p.extraBins).foldl
      (fun b (k : ℕ) => writeBin b (baseBin - p.extraBins + (k : ℤ)) (hft.getD k (none, none)))
      bins
    let bins2 := writeBin bins1 baseBin (hft.getD p.extraBins (none, none))
    let bins3 := (List.range p.extraBins).foldl
      (fun b (k : ℕ) => writeBin b (baseBin + 1 + (k : ℤ))
        (hft.getD (p.extraBins + 1 + k) (none, none)))
      bins2
    scatterLoop p bins3 (hft.drop (2 * p.extraBins + 1)) (interval + 1)
  else .error "TypeError: cannot read properties of undefined"
termination_by hft.length
decreasing_by simp only [List.length_drop]; cases hft with
  | nil => simp [List.isEmpty] at *
  | cons a l => simp at *; omega

/-- The body of `hftnnInverse` after validation: zero spectrum, scatter,
inverse kernel, and `step(inverse, 1)` — a full copy of the interleaved
complex output buffer. -/
noncomputable def hftnnInverseCore (K : FFTKernel) (hft : Frame) (p : HFTNNProperties) :
    Except String (List JsVal) :=
  match scatterLoop p (createComplexArray p.dftSize) hft 0 with
  | .ok bins => .ok (step (K.inverseTransform p.dftSize bins) 1)
  | .error e => .error e

/-- `hftnnInverse(hft, properties)` with its validation. -/
noncomputable def hftnnInverseChecked (K : FFTKernel) (hft : Option Frame)
    (properties : Option HFTNNProperties) : Except String (List JsVal) :=
  match hft with
  | none => .error "No HFTNN has been specified."
  | some h =>
    match properties with
    | none => .error "No properties have been given."
    | some p => hftnnInverseCore K h p

/-! ### hftnn.ts : temporal reconstructor -/

/-- One interpolated frame at fraction `t`: entry-by-entry `lerp` of
magnitude and phase between `hft` and `nextHft` (`k < hft.length`; the
source would throw reading `nextHft[k]` were `nextHft` shorter, which the
caller of this definition checks). -/
def interpolatedFrame (hft nextHft : Frame) (t : ℝ) : Frame :=
  List.zipWith (fun a b => (jsLerp a.1 b.1 t, jsLerp a.2 b.2 t)) hft nextHft

/-- The `j` loop adding the `2·interpolatedChunks` missing interpolated
chunks between `hft` and `nextHft`, at fractions
`t = (j + 1) / (2·interpolatedChunks + 1)`; each synthesized frame is
inverse-transformed and windowed. -/
noncomputable def interpolationPass (K : FFTKernel) (p : HFTNNProperties)
    (windowFunc : List JsVal) (hft nextHft : Frame) :
    Except String (List (List JsVal)) :=
  (List.range (2 * p.interpolatedChunks)).mapM
    (fun (j : ℕ) => do
      if nextHft.length < hft.length then
        throw "TypeError: cannot read properties of undefined"
      else
        let t : ℝ := ((j : ℝ) + 1) / (2 * (p.interpolatedChunks : ℝ) + 1)
        let sig ← hftnnInverseCore K (interpolatedFrame hft nextHft t) p
        pure (applyWindow windowFunc sig))

/-- The frame-processing loop of `hftnnInverseTemporal`: inverse-transform
and window the current frame; with `interpolatedChunks > 0` and a lookahead
frame, also emit the interpolated frames and the windowed lookahead, then
skip the lookahead.  `windowFunc` is built once, from the first
reconstructed signal's length, and reused. -/
noncomputable def inverseTemporalPass (K : FFTKernel) (p : HFTNNProperties) :
    Option (List JsVal) → List Frame → Except String (List (List JsVal))
  | _, [] => .ok []
  | windowFunc, hft :: rest => do
    let sig ← hftnnInverseCore K hft p
    let w := windowFunc.getD (cosineWindow sig.length)
    let wsig := applyWindow w sig
    match rest with
    | nextHft :: rest2 =>
      if 0 < p.interpolatedChunks then do
        let interpolated ← interpolationPass K p w hft nextHft
        let nextSig ← hftnnInverseCore K nextHft p
        let tail ← inverseTemporalPass K p (some w) rest2
        pure (wsig :: (interpolated ++ (applyWindow w nextSig :: tail)))
      else do
        let tail ← inverseTemporalPass K p (some w) (nextHft :: rest2)
        pure (wsig :: tail)
    | [] => pure [wsig]
termination_by _ l => l.length
decreasing_by all_goals (simp only [List.length_cons]; omega)

/-- One overlap-add step: `relativeStart = length(acc) − dftSize` (the
source computes `(len − 2·dftSize) + (2·dftSize)·(1/2)`, kept here in ℤ so
a short accumulator behaves as in JS: negative indices leave the array
unchanged); for `j < 2·dftSize` either append `frame[j]` or add it into the
accumulator and double the sum. -/
def overlapAddStep (p : HFTNNProperties) (acc frame : List JsVal) : List JsVal :=
  (List.range (2 * p.dftSize)).foldl
    (fun sig (j : ℕ) =>
      let signalIdx : ℤ := ((acc.length : ℤ) - 2 * p.dftSize) + p.dftSize + j
      if (sig.length : ℤ) ≤ signalIdx then sig ++ [jsIndex frame j]
      else jsSet sig signalIdx (jsMul (jsAdd (jsIndex sig signalIdx) (jsIndex frame j)) (some 2)))
    acc

/-- `hftnnInverseTemporal(hftt, properties)`: empty input gives `[]`;
otherwise the windowed reconstructed frames are stitched by overlap-add
starting from a copy of the first one. -/
noncomputable def hftnnInverseTemporal (K : FFTKernel) (hftt : List Frame)
    (p : HFTNNProperties) : Except String (List JsVal) :=
  if hftt.length = 0 then .ok []
  else do
    let signals ← inverseTemporalPass K p none hftt
    match signals with
    | [] => pure []
    | s0 :: restSignals => pure (restSignals.foldl (overlapAddStep p) s0)

/-! ### Concrete instances used in witnesses and counterexamples -/

/-- A kernel satisfying the buffer contract that returns all-zero buffers
(an inverse DFT maps the zero spectrum to the zero signal). -/
def zeroKernel : FFTKernel :=
  ⟨fun n _ => List.replicate (2 * n) (some 0), fun n _ => List.replicate (2 * n) (some 0)⟩

/-- A kernel satisfying the buffer contract whose forward output for
`size = 4` has non-zero content in bins 2 (Nyquist) and 3. -/
def spikeKernel : FFTKernel :=
  ⟨fun n _ =>
      if n = 4 then [some 0, some 0, some 0, some 0, some 3, some 4, some 1, some 0]
      else List.replicate (2 * n) (some 0),
   fun n _ => List.replicate (2 * n) (some 0)⟩

/-- The spec §8 scenario properties: `dftSize = 8`, `octaveRange = 1`,
`frequenciesInOctave = 1`, `extraBins = 0` (with `sampleRate = 8`,
`fundamental = 1`). -/
def p8 : HFTNNProperties := ⟨8, 1, 1, 1, 0, 0, 8⟩

/-- Properties with `dftSize = 4`, `extraBins = 1`, `fundamental = 2`,
`sampleRate = 4`: harmonic interval 0 maps to bin 2 = dftSize/2. -/
def p4 : HFTNNProperties := ⟨4, 2, 1, 1, 1, 0, 4⟩

/-- Properties with `dftSize = 8`, `extraBins = 1`, `sampleRate = 32`:
harmonic interval 0 maps to bin 0, so its low neighbour has index −1. -/
def pLow : HFTNNProperties := ⟨32, 1, 1, 1, 1, 0, 8⟩

/-- A three-sample signal, shorter than `p8.dftSize = 8`. -/
def sig3 : List JsVal := [some 1, some 1, some 1]

/-- Properties with `dftSize = 4` and `interpolatedChunks = 1`, used to
exercise the skip policy of the temporal chunker. -/
def pInterp : HFTNNProperties := ⟨8, 1, 1, 1, 0, 1, 4⟩

/-- The total hop count of the chunking loop for a signal of length `len`:
the number of offsets `0, hop, 2·hop, … < len` with `hop = dftSize / 2`
(spec §4.4). -/
def totalHops (p : HFTNNProperties) (len : ℕ) : ℕ :=
  (len - 1) / (p.dftSize / 2) + 1

/-! ### Basic structural lemmas -/

theorem applyWindow_length (m s : List JsVal) : (applyWindow m s).length = s.length := by
  simp [applyWindow]
  omega

theorem cosineWindow_length (n : ℕ) : (cosineWindow n).length = n := by
  simp [cosineWindow]

theorem jsSetLength_length (l : List JsVal) (n : ℕ) : (jsSetLength l n).length = n := by
  simp [jsSetLength]
  omega

theorem mkChunk_length (s : List JsVal) (i n : ℕ) : (mkChunk s i n).length = n := by
  simp [mkChunk]

theorem emitInterval_length (t : List JsVal) (L : ℕ) (p : HFTNNProperties) (j : ℕ) :
    (emitInterval t L p j).length = 2 * p.extraBins + 1 := by
  simp [emitInterval]
  omega

theorem length_flatMap_const {α β : Type} (l : List α) (f : α → List β) (c : ℕ)
    (h : ∀ a, (f a).length = c) : (l.flatMap f).length = l.length * c := by
  induction l with
  | nil => simp
  | cons x xs ih => simp [h, ih]; ring

theorem hftnnForwardCore_frame_length (K : FFTKernel) (s : List JsVal)
    (p : HFTNNProperties) (w : Option (List JsVal)) :
    (hftnnForwardCore K s p w).1.length
      = p.octaveRange * p.frequenciesInOctave * (2 * p.extraBins + 1) := by
  simp only [hftnnForwardCore]
  rw [length_flatMap_const _ _ (2 * p.extraBins + 1)
    (fun j => emitInterval_length _ _ _ _)]
  rw [List.length_range]

theorem isPowerOfTwo_one_lt {v : ℕ} (h : isPowerOfTwo v = true) : 1 < v := by
  simp [isPowerOfTwo] at h
  exact h.1

/-! ### Claim C8 : strict monotonicity of `intervalToFreq` -/

/-- Claim C8: for every fixed `fundamental > 0` and `intervalsInOctave > 0`,
`intervalToFreq(x, fundamental, intervalsInOctave) =
fundamental · 2^(x / intervalsInOctave)` is strictly increasing in the
interval argument `x`. -/
theorem intervalToFreq_strictMono (fundamental intervalsInOctave x1 x2 : ℝ)
    (hf : 0 < fundamental) (hn : 0 < intervalsInOctave) (hx : x1 < x2) :
    intervalToFreq x1 fundamental intervalsInOctave
      < intervalToFreq x2 fundamental intervalsInOctave := by
  unfold intervalToFreq
  refine mul_lt_mul_of_pos_left ?_ hf
  exact (Real.rpow_lt_rpow_left_iff one_lt_two).mpr (div_lt_div_of_pos_right hx hn)

/-- Witness for C8 at `fundamental = 1`, `intervalsInOctave = 1`,
`x1 = 0 < 1 = x2`. -/
theorem intervalToFreq_strictMono_witness :
    0 < (1 : ℝ) ∧ (0 : ℝ) < 1 ∧ intervalToFreq 0 1 1 < intervalToFreq 1 1 1 :=
  ⟨by norm_num, by norm_num,
    intervalToFreq_strictMono 1 1 0 1 (by norm_num) (by norm_num) (by norm_num)⟩

/-! ### Claim C6 : the validation of `hftnnForward` -/

/-- Claim C6: `hftnnForward` raises if and only if the signal argument is
absent, or the signal's length fails `isPowerOfTwo` (a power of two greater
than 1), or the properties argument is absent; when none of the three
conditions holds the validation never raises. -/
theorem hftnnForward_raises_iff (K : FFTKernel) (signal : Option (List JsVal))
    (properties : Option HFTNNProperties) (w : Option (List JsVal)) :
    (∃ e, hftnnForwardChecked K signal properties w = .error e) ↔
      (signal = none
        ∨ (∃ s, signal = some s ∧ isPowerOfTwo s.length = false)
        ∨ properties = none) := by
  cases signal with
  | none => simp [hftnnForwardChecked]
  | some s =>
    cases properties with
    | none =>
      by_cases h : isPowerOfTwo s.length <;> simp [hftnnForwardChecked, h]
    | some p =>
      by_cases h : isPowerOfTwo s.length <;> simp [hftnnForwardChecked, h]

/-! ### Claim C7 : determinism of the four public operations -/

/-- Claim C7: the four public operations are deterministic functions of
their input values: value-identical signal/frame and properties inputs give
identical outputs.  (All state of the embedding is call-local; no state
parameter is threaded between calls.) -/
theorem hftnn_operations_deterministic (K : FFTKernel) (s1 s2 : List JsVal)
    (f1 f2 : Frame) (t1 t2 : List Frame) (p1 p2 : HFTNNProperties)
    (w : Option (List JsVal)) (hs : s1 = s2) (hf : f1 = f2) (ht : t1 = t2)
    (hp : p1 = p2) :
    hftnnForwardChecked K (some s1) (some p1) w
        = hftnnForwardChecked K (some s2) (some p2) w
      ∧ hftnnForwardTemporal K s1 p1 = hftnnForwardTemporal K s2 p2
      ∧ hftnnInverseChecked K (some f1) (some p1)
        = hftnnInverseChecked K (some f2) (some p2)
      ∧ hftnnInverseTemporal K t1 p1 = hftnnInverseTemporal K t2 p2 := by
  subst hs; subst hf; subst ht; subst hp
  exact ⟨rfl, rfl, rfl, rfl⟩

/-- Witness for C7 at concrete inputs. -/
theorem hftnn_operations_deterministic_witness :
    hftnnForwardChecked zeroKernel (some sig3) (some p8) none
        = hftnnForwardChecked zeroKernel (some sig3) (some p8) none
      ∧ hftnnForwardTemporal zeroKernel sig3 p8 = hftnnForwardTemporal zeroKernel sig3 p8
      ∧ hftnnInverseChecked zeroKernel (some [((some 0), (some 0))]) (some p8)
        = hftnnInverseChecked zeroKernel (some [((some 0), (some 0))]) (some p8)
      ∧ hftnnInverseTemporal zeroKernel [] p8 = hftnnInverseTemporal zeroKernel [] p8 :=
  hftnn_operations_deterministic zeroKernel sig3 sig3 [((some 0), (some 0))]
    [((some 0), (some 0))] [] [] p8 p8 none rfl rfl rfl rfl

/-! ### Concrete bin-index evaluations -/

theorem jsRound_eq (x : ℝ) (z : ℤ) (h1 : (z : ℝ) ≤ x + 1/2) (h2 : x + 1/2 < (z : ℝ) + 1) :
    jsRound x = z := by
  unfold jsRound
  exact Int.floor_eq_iff.mpr ⟨h1, h2⟩

theorem binIndexOf_p8_zero : binIndexOf p8 8 0 = 1 := by
  have hfreq : intervalToFreq ((0 : ℕ) : ℝ) p8.fundamental (p8.frequenciesInOctave : ℝ) = 1 := by
    simp [intervalToFreq, p8]
  unfold binIndexOf
  rw [hfreq]
  unfold freqToFftBin
  have hx : (1 : ℝ) * ((8 : ℕ) : ℝ) / p8.sampleRate = 1 := by
    simp [p8]
  rw [hx]
  exact jsRound_eq 1 1 (by norm_num) (by norm_num)

theorem binIndexOf_p4_zero : binIndexOf p4 4 0 = 2 := by
  have hfreq : intervalToFreq ((0 : ℕ) : ℝ) p4.fundamental (p4.frequenciesInOctave : ℝ) = 2 := by
    simp [intervalToFreq, p4]
  unfold binIndexOf
  rw [hfreq]
  unfold freqToFftBin
  have hx : (2 : ℝ) * ((4 : ℕ) : ℝ) / p4.sampleRate = 2 := by
    simp [p4]
  rw [hx]
  exact jsRound_eq 2 2 (by norm_num) (by norm_num)

theorem binIndexOf_pLow_zero : binIndexOf pLow 8 0 = 0 := by
  have hfreq : intervalToFreq ((0 : ℕ) : ℝ) pLow.fundamental (pLow.frequenciesInOctave : ℝ) = 1 := by
    simp [intervalToFreq, pLow]
  unfold binIndexOf
  rw [hfreq]
  unfold freqToFftBin
  have hx : (1 : ℝ) * ((8 : ℕ) : ℝ) / pLow.sampleRate = 1/4 := by
    simp [pLow]
    norm_num
  rw [hx]
  exact jsRound_eq (1/4) 0 (by norm_num) (by norm_num)

/-! ### Claim C1 : what `hftnnInverse` returns -/

/-- The scatter loop succeeds whenever the frame's length is a multiple of
`2·extraBins + 1` (in particular at the valid frame length). -/
theorem scatterLoop_ok (p : HFTNNProperties) :
    ∀ (n : ℕ) (hft : Frame), hft.length = n → (2 * p.extraBins + 1) ∣ n →
      ∀ (bins : List JsVal) (interval : ℕ),
        ∃ out, scatterLoop p bins hft interval = .ok out := by
  intro n
  induction n using Nat.strong_induction_on with
  | _ n ih =>
    intro hft hlen hdvd bins interval
    match hft with
    | [] =>
      refine ⟨bins, ?_⟩
      rw [scatterLoop]
      simp
    | x :: rest =>
      have hpos : 0 < n := by
        rw [← hlen]; simp
      have hle : 2 * p.extraBins + 1 ≤ (x :: rest).length := by
        rw [hlen]; exact Nat.le_of_dvd hpos hdvd
      rw [scatterLoop]
      simp only [List.isEmpty_cons, Bool.false_eq_true, if_false, hle, dif_pos]
      apply ih (n - (2 * p.extraBins + 1)) (by omega)
      · rw [List.length_drop, hlen]
      · exact Nat.dvd_sub' hdvd dvd_rfl

/-- Claim C1 (amended): for every kernel satisfying the buffer contract and
every frame of the valid length, `hftnnInverse` returns (without error) the
inverse kernel's full interleaved complex buffer via `step(·, 1)` — i.e.
`2·dftSize` values with real and imaginary components interleaved — not
`dftSize` real samples. -/
theorem hftnnInverse_returns_interleaved_buffer (K : FFTKernel) (hft : Frame)
    (p : HFTNNProperties) (hK : ∀ n l, (K.inverseTransform n l).length = 2 * n)
    (hlen : hft.length
      = p.octaveRange * p.frequenciesInOctave * (2 * p.extraBins + 1)) :
    ∃ l, hftnnInverseChecked K (some hft) (some p) = .ok l
      ∧ l.length = 2 * p.dftSize := by
  obtain ⟨bins, hb⟩ := scatterLoop_ok p hft.length hft rfl
    ⟨p.octaveRange * p.frequenciesInOctave, by rw [hlen]; ring⟩
    (createComplexArray p.dftSize) 0
  refine ⟨step (K.inverseTransform p.dftSize bins) 1, ?_, ?_⟩
  · simp [hftnnInverseChecked, hftnnInverseCore, hb]
  · simp [step, hK]

/-- Witness for the amended C1 at the spec §8 scenario input. -/
theorem hftnnInverse_returns_interleaved_buffer_witness :
    (∀ n l, (zeroKernel.inverseTransform n l).length = 2 * n)
      ∧ ([((some 0), (some 0))] : Frame).length
        = p8.octaveRange * p8.frequenciesInOctave * (2 * p8.extraBins + 1)
      ∧ ∃ l, hftnnInverseChecked zeroKernel (some [((some 0), (some 0))]) (some p8)
          = .ok l ∧ l.length = 2 * p8.dftSize := by
  have hk : ∀ n l, (zeroKernel.inverseTransform n l).length = 2 * n := by
    intro n l
    simp [zeroKernel]
  have hl : ([((some 0), (some 0))] : Frame).length
      = p8.octaveRange * p8.frequenciesInOctave * (2 * p8.extraBins + 1) := by
    simp [p8]
  exact ⟨hk, hl, hftnnInverse_returns_interleaved_buffer zeroKernel _ p8 hk hl⟩

/-- Counterexample to C1 as stated: at the spec §8 scenario
(`inverseTransform([[0,0]], p8)` with a contract-satisfying kernel that
maps the zero spectrum to the zero buffer) the result is the 16-value
all-zero interleaved buffer, not an 8-sample signal. -/
theorem hftnnInverse_dftSize_output_cex :
    hftnnInverseChecked zeroKernel (some [((some 0), (some 0))]) (some p8)
        = .ok (List.replicate 16 (some 0))
      ∧ (List.replicate 16 ((some 0) : JsVal)).length ≠ 8 := by
  constructor
  · obtain ⟨bins, hb⟩ := scatterLoop_ok p8 1 [((some 0), (some 0))] rfl
      (by simp [p8]) (createComplexArray p8.dftSize) 0
    have : zeroKernel.inverseTransform p8.dftSize bins
        = List.replicate 16 (some 0) := by
      simp [zeroKernel, p8]
    simp [hftnnInverseChecked, hftnnInverseCore, hb, step, this]
  · simp

/-! ### Claim C2 : the out-of-range-bin policy of `hftnnForward` -/

theorem p4_fields : p4.sampleRate = 4 ∧ p4.fundamental = 2 ∧ p4.frequenciesInOctave = 1
    ∧ p4.octaveRange = 1 ∧ p4.extraBins = 1 ∧ p4.dftSize = 4 :=
  ⟨rfl, rfl, rfl, rfl, rfl, rfl⟩

/-- A low-neighbour entry with computed index `< 0` is emitted as `(0, 0)`,
for every spectrum `t`. -/
theorem emitInterval_low_oob (t : List JsVal) (L : ℕ) (p : HFTNNProperties) (j k : ℕ)
    (hk : k < p.extraBins)
    (hneg : binIndexOf p L j - p.extraBins + (k : ℤ) < 0) :
    (emitInterval t L p j)[k]? = some ((some 0), (some 0)) := by
  simp only [emitInterval, List.append_assoc]
  rw [List.getElem?_append]
  simp [hk, List.getElem?_range, hneg]

/-- A high-neighbour entry with computed index `≥ bins.length = dftSize`
(for a contract-length spectrum) is emitted as `(0, 0)`, for every such
spectrum `t`. -/
theorem emitInterval_high_oob (t : List JsVal) (L : ℕ) (p : HFTNNProperties) (j k : ℕ)
    (ht : t.length = 2 * p.dftSize) (hk : k < p.extraBins)
    (hbig : (p.dftSize : ℤ) ≤ binIndexOf p L j + 1 + (k : ℤ)) :
    (emitInterval t L p j)[p.extraBins + 1 + k]? = some ((some 0), (some 0)) := by
  have hbl : ((t.length / 2 : ℕ) : ℤ) = (p.dftSize : ℤ) := by
    rw [ht]; omega
  simp only [emitInterval, List.append_assoc]
  rw [List.getElem?_append]
  simp only [List.length_map, List.length_range]
  rw [if_neg (by omega)]
  have hidx : p.extraBins + 1 + k - p.extraBins = 1 + k := by omega
  rw [hidx, List.getElem?_append]
  simp only [List.length_cons, List.length_nil]
  rw [if_neg (by omega)]
  have hidx2 : 1 + k - 1 = k := by omega
  rw [hidx2]
  simp [hk, List.getElem?_range, hbl, hbig]

/-- Claim C2 (amended): for every signal of `isPowerOfTwo` length and every
properties value, `hftnnForward` returns without raising, its frame is a
concatenation of per-interval `emitInterval` blocks over the spectrum, and
a `(0, 0)` entry is substituted without reading the spectrum exactly for
low neighbours with index `< 0` and high neighbours with index `≥ dftSize`
(the code's guard is `bins.length = dftSize`, not `dftSize/2`; the centre
bin is not guarded at all). -/
theorem hftnnForward_oob_guards (K : FFTKernel) (s : List JsVal)
    (p : HFTNNProperties) (w : Option (List JsVal))
    (hs : isPowerOfTwo s.length = true) :
    hftnnForwardChecked K (some s) (some p) w = .ok (hftnnForwardCore K s p w)
      ∧ (∃ t, (hftnnForwardCore K s p w).1
          = (List.range (p.octaveRange * p.frequenciesInOctave)).flatMap
              (fun j => emitInterval t s.length p j))
      ∧ (∀ (t : List JsVal) (j k : ℕ), k < p.extraBins →
          binIndexOf p s.length j - p.extraBins + (k : ℤ) < 0 →
          (emitInterval t s.length p j)[k]? = some ((some 0), (some 0)))
      ∧ (∀ (t : List JsVal) (j k : ℕ), t.length = 2 * p.dftSize →
          k < p.extraBins →
          (p.dftSize : ℤ) ≤ binIndexOf p s.length j + 1 + (k : ℤ) →
          (emitInterval t s.length p j)[p.extraBins + 1 + k]?
            = some ((some 0), (some 0))) := by
  refine ⟨by simp [hftnnForwardChecked, hs], ⟨_, rfl⟩, ?_, ?_⟩
  · intro t j k hk hneg
    exact emitInterval_low_oob t s.length p j k hk hneg
  · intro t j k ht hk hbig
    exact emitInterval_high_oob t s.length p j k ht hk hbig

/-- Witness for the amended C2: with `pLow` (`fundamental = 1`,
`sampleRate = 32`, `dftSize = 8`, `extraBins = 1`) interval 0 maps to bin 0
and its low neighbour −1 yields `(0, 0)`. -/
theorem hftnnForward_oob_guards_witness :
    isPowerOfTwo (List.replicate 8 ((some 0) : JsVal)).length = true
      ∧ hftnnForwardChecked zeroKernel (some (List.replicate 8 (some 0))) (some pLow) none
        = .ok (hftnnForwardCore zeroKernel (List.replicate 8 (some 0)) pLow none)
      ∧ (emitInterval [] (List.replicate 8 ((some 0) : JsVal)).length pLow 0)[0]?
        = some ((some 0), (some 0)) := by
  have hs : isPowerOfTwo (List.replicate 8 ((some 0) : JsVal)).length = true := by
    rw [List.length_replicate]
    decide
  have h := hftnnForward_oob_guards zeroKernel (List.replicate 8 (some 0)) pLow none hs
  refine ⟨hs, h.1, ?_⟩
  have hneg : binIndexOf pLow (List.replicate 8 ((some 0) : JsVal)).length 0
      - pLow.extraBins + ((0 : ℕ) : ℤ) < 0 := by
    rw [List.length_replicate, binIndexOf_pLow_zero]
    norm_num [pLow]
  have h0 : (0 : ℕ) < pLow.extraBins := by norm_num [pLow]
  exact h.2.2.1 [] 0 0 h0 hneg

/-- Counterexample to C2 as stated: with `p4` (`dftSize = 4`, so the claimed
range is `[0, 2)`) interval 0 has centre bin 2, outside `[0, dftSize/2)`,
yet with a contract-length spectrum whose bin 2 is `3 + 4i` the emitted
centre entry has magnitude 5, not `(0, 0)` — the code reads the spectrum
there. -/
theorem hftnnForward_halfrange_claim_cex :
    binIndexOf p4 4 0 = 2
      ∧ ¬(binIndexOf p4 4 0 < (p4.dftSize : ℤ) / 2)
      ∧ (hftnnForwardChecked spikeKernel (some (List.replicate 4 (some 0)))
            (some p4) none).map
          (fun fr => (fr.1.getD 1 ((some 0), (some 0))).1)
        = .ok (some 5)
      ∧ ((some 5 : JsVal) ≠ (some 0 : JsVal)) := by
  have hr1 : List.range 1 = [0] := by
    simp [List.range_succ]
  have hp4 : isPowerOfTwo 4 = true := by decide
  have hs : isPowerOfTwo (List.replicate 4 ((some 0) : JsVal)).length = true := by
    rw [List.length_replicate]; exact hp4
  have hok : hftnnForwardChecked spikeKernel (some (List.replicate 4 (some 0)))
      (some p4) none
      = .ok (hftnnForwardCore spikeKernel (List.replicate 4 (some 0)) p4 none) := by
    simp [hftnnForwardChecked, hp4]
  have htrans : ∀ l : List JsVal, spikeKernel.realTransform p4.dftSize l
      = [some 0, some 0, some 0, some 0, some 3, some 4, some 1, some 0] := by
    intro l
    show spikeKernel.realTransform 4 l = _
    simp [spikeKernel]
  have hframe : (hftnnForwardCore spikeKernel (List.replicate 4 (some 0)) p4 none).1
      = emitInterval [some 0, some 0, some 0, some 0, some 3, some 4, some 1, some 0]
          4 p4 0 := by
    simp only [hftnnForwardCore, htrans, List.length_replicate]
    norm_num [show p4.octaveRange = 1 from rfl, show p4.frequenciesInOctave = 1 from rfl,
      hr1]
  have hemit : (emitInterval
        [some 0, some 0, some 0, some 0, some 3, some 4, some 1, some 0] 4 p4 0).getD 1
        ((some 0), (some 0))
      = readBin [some 0, some 0, some 0, some 0, some 3, some 4, some 1, some 0] 2 := by
    simp only [emitInterval, binIndexOf_p4_zero, show p4.extraBins = 1 from rfl, hr1,
      List.map_cons, List.map_nil]
    norm_num [List.getD]
  have hval : (readBin
        [some 0, some 0, some 0, some 0, some 3, some 4, some 1, some 0] 2).1
      = some 5 := by
    have h4 : jsIndex [some 0, some 0, some 0, some 0, some 3, some 4, some 1, some 0]
        (2 * 2) = some 3 := rfl
    have h5 : jsIndex [some 0, some 0, some 0, some 0, some 3, some 4, some 1, some 0]
        (2 * 2 + 1) = some 4 := rfl
    simp only [readBin, fftBinToMagnitudePhase, h4, h5, jsMul, jsAdd, jsSqrt]
    rw [show (3 : ℝ) * 3 + 4 * 4 = 25 by norm_num]
    rw [show (25 : ℝ) = 5 ^ 2 by norm_num]
    rw [Real.sqrt_sq (by norm_num)]
  refine ⟨binIndexOf_p4_zero, ?_, ?_, by simp⟩
  · rw [binIndexOf_p4_zero]
    norm_num [show p4.dftSize = 4 from rfl]
  · rw [hok]
    simp only [Except.map]
    rw [hframe, hemit, hval]

/-! ### Claim C3 : the short-signal branch of the temporal chunker -/

/-- Claim C3 (evaluation at the failing input): for the 3-sample signal and
`dftSize = 8`, the short branch runs the forward frame transform exactly
once on `signal` after `signal.length = dftSize` — but that extension fills
the padded positions with holes (`undefined`, here `none`), not with zeros,
and window application then turns them into `NaN`: the padded buffer is
`sig3 ++ [none × 5]`, not `sig3 ++ [0 × 5]`, and the windowed buffer the
FFT kernel receives has `none` at the padded positions. -/
theorem hftnnForwardTemporal_short_pads_with_holes :
    hftnnForwardTemporal zeroKernel sig3 p8
        = (hftnnForwardChecked zeroKernel (some (jsSetLength sig3 p8.dftSize))
            (some p8) none).map (fun fr => ([fr.1], fr.2))
      ∧ jsSetLength sig3 p8.dftSize = sig3 ++ [none, none, none, none, none]
      ∧ jsSetLength sig3 p8.dftSize ≠ sig3 ++ List.replicate 5 (some 0)
      ∧ (hftnnForwardCore zeroKernel (jsSetLength sig3 p8.dftSize) p8 none).2.getD 5
          (some 0) = none := by
  have hlen : sig3.length < p8.dftSize := by
    norm_num [sig3, show p8.dftSize = 8 from rfl]
  refine ⟨?_, rfl, ?_, ?_⟩
  · simp only [hftnnForwardTemporal, if_pos hlen]
    cases h : hftnnForwardChecked zeroKernel (some (jsSetLength sig3 p8.dftSize))
        (some p8) none with
    | ok fr => simp [Except.map]
    | error e => simp [Except.map]
  · intro hcontra
    have h3 : (jsSetLength sig3 p8.dftSize)[3]? = (sig3 ++ List.replicate 5 (some 0))[3]? := by
      rw [hcontra]
    rw [show p8.dftSize = 8 from rfl] at h3
    simp [jsSetLength, sig3] at h3
  · have hrange : List.range 8 = [0, 1, 2, 3, 4, 5, 6, 7] := by decide
    simp only [hftnnForwardCore, applyWindow, cosineWindow, jsSetLength_length]
    rw [show (jsSetLength sig3 p8.dftSize) = sig3 ++ [none, none, none, none, none]
      from rfl]
    rw [show p8.dftSize = 8 from rfl, hrange]
    simp [sig3, jsMul, List.getD]

/-! ### Claim C4 : the frame length invariant -/

theorem hftnnForwardChecked_ok_eq (K : FFTKernel) (s : List JsVal) (p : HFTNNProperties)
    (w : Option (List JsVal)) (fr : Frame × List JsVal)
    (h : hftnnForwardChecked K (some s) (some p) w = .ok fr) :
    fr = hftnnForwardCore K s p w := by
  by_cases hs : isPowerOfTwo s.length = true
  · simp [hftnnForwardChecked, hs] at h
    exact h.symm
  · simp [hftnnForwardChecked, hs] at h

/-- Every frame a successful chunking loop returns is a forward-core frame
for some chunk. -/
theorem chunkLoop_frames_shape (K : FFTKernel) (p : HFTNNProperties)
    (mult s : List JsVal) :
    ∀ (n i j : ℕ), s.length - i = n →
      ∀ frames, chunkLoop K p mult s i j = .ok frames →
        ∀ f ∈ frames, ∃ c : List JsVal, f = (hftnnForwardCore K c p (some mult)).1 := by
  intro n
  induction n using Nat.strong_induction_on with
  | _ n ih =>
    intro i j hn frames h f hf
    rw [chunkLoop] at h
    by_cases hc : i < s.length ∧ 0 < p.dftSize / 2
    · rw [dif_pos hc] at h
      by_cases hj : j = 0 ∨ s.length + p.dftSize / 2 ≤ i
      · rw [if_pos hj] at h
        cases hchk : hftnnForwardChecked K (some (mkChunk s i p.dftSize)) (some p)
            (some mult) with
        | error e =>
          rw [hchk] at h
          simp at h
        | ok fr =>
          rw [hchk] at h
          cases hrec : chunkLoop K p mult s (i + p.dftSize / 2)
              (if p.interpolatedChunks < j + 1 then 0 else j + 1) with
          | error e =>
            rw [hrec] at h
            simp at h
          | ok rest =>
            rw [hrec] at h
            simp only [Except.ok.injEq] at h
            subst h
            rcases List.mem_cons.mp hf with hf1 | hf2
            · refine ⟨mkChunk s i p.dftSize, ?_⟩
              rw [hf1, hftnnForwardChecked_ok_eq K _ p _ fr hchk]
            · exact ih (s.length - (i + p.dftSize / 2)) (by omega) _ _ rfl rest hrec f hf2
      · rw [if_neg hj] at h
        exact ih (s.length - (i + p.dftSize / 2)) (by omega) _ _ rfl frames h f hf
    · rw [dif_neg hc] at h
      simp only [Except.ok.injEq] at h
      subst h
      simp at hf

/-- Claim C4: for every signal accepted by `hftnnForward` and every
properties value, the returned frame has length exactly
`octaveRange · frequenciesInOctave · (2·extraBins + 1)`, regardless of the
signal's sample values, and the same invariant holds for every frame of a
`hftnnForwardTemporal` result. -/
theorem hftnnForward_frame_length_invariant (K : FFTKernel) (p : HFTNNProperties)
    (w : Option (List JsVal)) :
    (∀ (s : List JsVal) (fr : Frame × List JsVal),
        hftnnForwardChecked K (some s) (some p) w = .ok fr →
        fr.1.length = p.octaveRange * p.frequenciesInOctave * (2 * p.extraBins + 1))
      ∧ (∀ (s : List JsVal) (frames : List Frame) (buf : List JsVal),
          hftnnForwardTemporal K s p = .ok (frames, buf) →
          ∀ f ∈ frames,
            f.length = p.octaveRange * p.frequenciesInOctave * (2 * p.extraBins + 1)) := by
  constructor
  · intro s fr h
    rw [hftnnForwardChecked_ok_eq K s p w fr h]
    exact hftnnForwardCore_frame_length K s p w
  · intro s frames buf h f hf
    rw [hftnnForwardTemporal] at h
    by_cases hshort : s.length < p.dftSize
    · rw [if_pos hshort] at h
      cases hchk : hftnnForwardChecked K (some (jsSetLength s p.dftSize)) (some p) none with
      | error e =>
        rw [hchk] at h
        simp at h
      | ok fr2 =>
        rw [hchk] at h
        simp only [Except.ok.injEq, Prod.mk.injEq] at h
        rw [← h.1] at hf
        rcases List.mem_singleton.mp hf with hf1
        rw [hf1, hftnnForwardChecked_ok_eq K _ p none fr2 hchk]
        exact hftnnForwardCore_frame_length K _ p none
    · rw [if_neg hshort] at h
      cases hloop : chunkLoop K p (cosineWindow p.dftSize) s 0 0 with
      | error e =>
        rw [hloop] at h
        simp at h
      | ok frames0 =>
        rw [hloop] at h
        simp only [Except.ok.injEq, Prod.mk.injEq] at h
        rw [← h.1] at hf
        obtain ⟨c, hc⟩ := chunkLoop_frames_shape K p (cosineWindow p.dftSize) s
          (s.length - 0) 0 0 rfl frames0 hloop f hf
        rw [hc]
        exact hftnnForwardCore_frame_length K c p _

/-- Witness for C4 at concrete inputs (a direct call on an 8-sample signal
and a temporal call on the 3-sample signal). -/
theorem hftnnForward_frame_length_invariant_witness :
    (∃ fr, hftnnForwardChecked zeroKernel (some (List.replicate 8 (some 0)))
          (some p8) none = .ok fr
        ∧ fr.1.length = p8.octaveRange * p8.frequenciesInOctave * (2 * p8.extraBins + 1))
      ∧ (∃ frames buf, hftnnForwardTemporal zeroKernel sig3 p8 = .ok (frames, buf)
          ∧ ∀ f ∈ frames,
            f.length = p8.octaveRange * p8.frequenciesInOctave * (2 * p8.extraBins + 1)) := by
  have h8 : isPowerOfTwo (8 : ℕ) = true := by decide
  have hchk : hftnnForwardChecked zeroKernel (some (List.replicate 8 (some 0)))
      (some p8) none
      = .ok (hftnnForwardCore zeroKernel (List.replicate 8 (some 0)) p8 none) := by
    simp [hftnnForwardChecked, h8]
  have hchk2 : hftnnForwardChecked zeroKernel (some (jsSetLength sig3 p8.dftSize))
      (some p8) none
      = .ok (hftnnForwardCore zeroKernel (jsSetLength sig3 p8.dftSize) p8 none) := by
    have hl : isPowerOfTwo (jsSetLength sig3 p8.dftSize).length = true := by
      rw [jsSetLength_length]
      exact h8
    simp [hftnnForwardChecked, hl]
  have htemp : hftnnForwardTemporal zeroKernel sig3 p8
      = .ok ([(hftnnForwardCore zeroKernel (jsSetLength sig3 p8.dftSize) p8 none).1],
          (hftnnForwardCore zeroKernel (jsSetLength sig3 p8.dftSize) p8 none).2) := by
    have hlen : sig3.length < p8.dftSize := by
      norm_num [sig3, show p8.dftSize = 8 from rfl]
    simp only [hftnnForwardTemporal, if_pos hlen]
    rw [hchk2]
  exact ⟨⟨_, hchk, (hftnnForward_frame_length_invariant zeroKernel p8 none).1 _ _ hchk⟩,
    ⟨_, _, htemp, (hftnnForward_frame_length_invariant zeroKernel p8 none).2 sig3 _ _ htemp⟩⟩

/-! ### Claims C9 and C10 : buffer effects and chunk sizes of the chunker -/

theorem jsMul_none_left (v : JsVal) : jsMul none v = none := by
  cases v <;> rfl

theorem zipWith_jsMul_replicate_none :
    ∀ (k : ℕ) (l : List JsVal),
      List.zipWith jsMul (List.replicate k none) l
        = List.replicate (min k l.length) none := by
  intro k
  induction k with
  | zero => intro l; simp
  | succ k ih =>
    intro l
    cases l with
    | nil => simp
    | cons x xs =>
      simp only [List.replicate_succ, List.zipWith_cons_cons, jsMul_none_left, ih,
        List.length_cons, Nat.succ_min_succ]

/-- The windowed contents of the extended caller buffer in the short branch:
the first `length(s)` slots are the original samples times the window
coefficients, the padded slots stay `none`. -/
theorem applyWindow_padded (p : HFTNNProperties) (s : List JsVal)
    (hshort : s.length ≤ p.dftSize) :
    applyWindow (cosineWindow p.dftSize) (jsSetLength s p.dftSize)
      = List.zipWith jsMul s ((cosineWindow p.dftSize).take s.length)
        ++ List.replicate (p.dftSize - s.length) none := by
  have htake : s.take p.dftSize = s := List.take_of_length_le hshort
  have hpad : jsSetLength s p.dftSize
      = s ++ List.replicate (p.dftSize - s.length) none := by
    rw [jsSetLength, htake]
  rw [hpad, applyWindow, cosineWindow_length]
  rw [List.drop_eq_nil_of_le (by simp; omega)]
  conv_lhs => rw [← List.take_append_drop s.length (cosineWindow p.dftSize)]
  rw [List.zipWith_append _ _ _ _ _ (by rw [List.length_take, cosineWindow_length]; omega)]
  rw [zipWith_jsMul_replicate_none]
  simp [cosineWindow_length, min_def]

theorem applyWindow_padded_ne (p : HFTNNProperties) (s : List JsVal)
    (hshort : s.length < p.dftSize) :
    applyWindow (cosineWindow p.dftSize) (jsSetLength s p.dftSize) ≠ s := by
  intro hcontra
  have hl := congrArg List.length hcontra
  rw [applyWindow_length, jsSetLength_length] at hl
  omega

theorem hftnnForwardChecked_chunk_ok (K : FFTKernel) (p : HFTNNProperties)
    (mult s : List JsVal) (i : ℕ) (hpow : isPowerOfTwo p.dftSize = true) :
    hftnnForwardChecked K (some (mkChunk s i p.dftSize)) (some p) (some mult)
      = .ok (hftnnForwardCore K (mkChunk s i p.dftSize) p (some mult)) := by
  have hl : isPowerOfTwo (mkChunk s i p.dftSize).length = true := by
    rw [mkChunk_length]; exact hpow
  simp [hftnnForwardChecked, hl]

/-- Under a power-of-two `dftSize`, the chunking loop never fails. -/
theorem chunkLoop_ok (K : FFTKernel) (p : HFTNNProperties) (mult s : List JsVal)
    (hpow : isPowerOfTwo p.dftSize = true) :
    ∀ (n i j : ℕ), s.length - i = n →
      ∃ frames, chunkLoop K p mult s i j = .ok frames := by
  intro n
  induction n using Nat.strong_induction_on with
  | _ n ih =>
    intro i j hn
    rw [chunkLoop]
    by_cases hc : i < s.length ∧ 0 < p.dftSize / 2
    · rw [dif_pos hc]
      obtain ⟨rest, hrest⟩ := ih (s.length - (i + p.dftSize / 2)) (by omega)
        (i + p.dftSize / 2) (if p.interpolatedChunks < j + 1 then 0 else j + 1) rfl
      by_cases hj : j = 0 ∨ s.length + p.dftSize / 2 ≤ i
      · rw [if_pos hj, hftnnForwardChecked_chunk_ok K p mult s i hpow, hrest]
        exact ⟨_, rfl⟩
      · rw [if_neg hj, hrest]
        exact ⟨_, rfl⟩
    · rw [dif_neg hc]
      exact ⟨[], rfl⟩

/-- Claim C9: `hftnnForwardTemporal` leaves the caller's signal buffer
unchanged iff `length(signal) ≥ dftSize`.  If `length(signal) < dftSize`
the buffer itself is extended to `dftSize` slots and windowed in place (its
first `length(signal)` slots multiplied by window coefficients, the padded
slots holes) and is not restored; otherwise every processed frame is a
fresh slice and the buffer is returned untouched. -/
theorem hftnnForwardTemporal_mutates_iff (K : FFTKernel) (p : HFTNNProperties)
    (s : List JsVal) (hp : ValidProps p) :
    (s.length < p.dftSize →
        hftnnForwardTemporal K s p
            = .ok ([(hftnnForwardCore K (jsSetLength s p.dftSize) p none).1],
                applyWindow (cosineWindow p.dftSize) (jsSetLength s p.dftSize))
          ∧ applyWindow (cosineWindow p.dftSize) (jsSetLength s p.dftSize)
            = List.zipWith jsMul s ((cosineWindow p.dftSize).take s.length)
              ++ List.replicate (p.dftSize - s.length) none
          ∧ applyWindow (cosineWindow p.dftSize) (jsSetLength s p.dftSize) ≠ s)
      ∧ (p.dftSize ≤ s.length →
          ∃ frames, hftnnForwardTemporal K s p = .ok (frames, s)) := by
  obtain ⟨-, -, -, -, hpow⟩ := hp
  constructor
  · intro hshort
    have hl : isPowerOfTwo (jsSetLength s p.dftSize).length = true := by
      rw [jsSetLength_length]; exact hpow
    have hchk : hftnnForwardChecked K (some (jsSetLength s p.dftSize)) (some p) none
        = .ok (hftnnForwardCore K (jsSetLength s p.dftSize) p none) := by
      simp [hftnnForwardChecked, hl]
    have hbuf : (hftnnForwardCore K (jsSetLength s p.dftSize) p none).2
        = applyWindow (cosineWindow p.dftSize) (jsSetLength s p.dftSize) := by
      simp only [hftnnForwardCore]
      rw [jsSetLength_length]
    refine ⟨?_, applyWindow_padded p s (le_of_lt hshort), applyWindow_padded_ne p s hshort⟩
    rw [hftnnForwardTemporal, if_pos hshort, hchk]
    simp only [hbuf]
  · intro hlong
    rw [hftnnForwardTemporal, if_neg (not_lt.mpr hlong)]
    obtain ⟨frames, hframes⟩ := chunkLoop_ok K p (cosineWindow p.dftSize) s hpow
      (s.length - 0) 0 0 rfl
    rw [hframes]
    exact ⟨frames, rfl⟩

theorem validProps_p8 : ValidProps p8 :=
  ⟨by norm_num [p8], by norm_num [p8], by norm_num [p8], by norm_num [p8], by decide⟩

/-- Witness for C9 on the short branch at the 3-sample signal. -/
theorem hftnnForwardTemporal_mutates_iff_witness :
    ValidProps p8 ∧ sig3.length < p8.dftSize
      ∧ (hftnnForwardTemporal zeroKernel sig3 p8
            = .ok ([(hftnnForwardCore zeroKernel (jsSetLength sig3 p8.dftSize) p8 none).1],
                applyWindow (cosineWindow p8.dftSize) (jsSetLength sig3 p8.dftSize))
          ∧ applyWindow (cosineWindow p8.dftSize) (jsSetLength sig3 p8.dftSize)
            = List.zipWith jsMul sig3 ((cosineWindow p8.dftSize).take sig3.length)
              ++ List.replicate (p8.dftSize - sig3.length) none
          ∧ applyWindow (cosineWindow p8.dftSize) (jsSetLength sig3 p8.dftSize) ≠ sig3) := by
  have hv := validProps_p8
  have hs : sig3.length < p8.dftSize := by
    norm_num [sig3, show p8.dftSize = 8 from rfl]
  exact ⟨hv, hs, (hftnnForwardTemporal_mutates_iff zeroKernel p8 sig3 hv).1 hs⟩

/-- Claim C10: with a valid `dftSize`, every chunk handed to the forward
frame transform by `hftnnForwardTemporal` has length exactly `dftSize`
(slices are extended and zero-filled; the short branch extends to
`dftSize`), so the power-of-two validation of `hftnnForward` cannot fail
from the temporal path and the temporal call returns without error. -/
theorem hftnnForwardTemporal_chunks_sized (K : FFTKernel) (p : HFTNNProperties)
    (s : List JsVal) (hp : ValidProps p) :
    (∀ i, (mkChunk s i p.dftSize).length = p.dftSize)
      ∧ (jsSetLength s p.dftSize).length = p.dftSize
      ∧ ∃ out, hftnnForwardTemporal K s p = .ok out := by
  obtain ⟨-, -, -, -, hpow⟩ := hp
  refine ⟨fun i => mkChunk_length s i p.dftSize, jsSetLength_length s p.dftSize, ?_⟩
  rw [hftnnForwardTemporal]
  by_cases hshort : s.length < p.dftSize
  · rw [if_pos hshort]
    have hl : isPowerOfTwo (jsSetLength s p.dftSize).length = true := by
      rw [jsSetLength_length]; exact hpow
    have hchk : hftnnForwardChecked K (some (jsSetLength s p.dftSize)) (some p) none
        = .ok (hftnnForwardCore K (jsSetLength s p.dftSize) p none) := by
      simp [hftnnForwardChecked, hl]
    rw [hchk]
    exact ⟨_, rfl⟩
  · rw [if_neg hshort]
    obtain ⟨frames, hframes⟩ := chunkLoop_ok K p (cosineWindow p.dftSize) s hpow
      (s.length - 0) 0 0 rfl
    rw [hframes]
    exact ⟨_, rfl⟩

/-- Witness for C10 at the 3-sample signal and the scenario properties. -/
theorem hftnnForwardTemporal_chunks_sized_witness :
    ValidProps p8
      ∧ (mkChunk sig3 0 p8.dftSize).length = p8.dftSize
      ∧ (jsSetLength sig3 p8.dftSize).length = p8.dftSize
      ∧ ∃ out, hftnnForwardTemporal zeroKernel sig3 p8 = .ok out := by
  have hv := validProps_p8
  obtain ⟨h1, h2, h3⟩ := hftnnForwardTemporal_chunks_sized zeroKernel p8 sig3 hv
  exact ⟨hv, h1 0, h2, h3⟩

/-! ### Claim C5 : the skip policy of the temporal chunker -/

/-- The second disjunct `i ≥ length(signal) + dftSize/2` of the processing
condition can never fire while `i < length(signal)`, so the loop equals its
`j == 0`-only variant at every state. -/
theorem chunkLoop_eq_noLateGuard (K : FFTKernel) (p : HFTNNProperties)
    (mult s : List JsVal) :
    ∀ (n i j : ℕ), s.length - i = n →
      chunkLoop K p mult s i j = chunkLoopNoLateGuard K p mult s i j := by
  intro n
  induction n using Nat.strong_induction_on with
  | _ n ih =>
    intro i j hn
    rw [chunkLoop, chunkLoopNoLateGuard]
    by_cases hc : i < s.length ∧ 0 < p.dftSize / 2
    · rw [dif_pos hc, dif_pos hc]
      have hdead : ¬(s.length + p.dftSize / 2 ≤ i) := by omega
      rw [ih (s.length - (i + p.dftSize / 2)) (by omega) (i + p.dftSize / 2)
        (if p.interpolatedChunks < j + 1 then 0 else j + 1) rfl]
      by_cases hj : j = 0
      · rw [if_pos (Or.inl hj), if_pos hj]
      · rw [if_neg ?_, if_neg hj]
        rintro (h | h)
        · exact hj h
        · exact hdead h
    · rw [dif_neg hc, dif_neg hc]

/-- The skip counter follows `j = k % (interpolatedChunks + 1)` across hops. -/
theorem nextSkip_eq (ic k : ℕ) :
    (if ic < k % (ic + 1) + 1 then 0 else k % (ic + 1) + 1) = (k + 1) % (ic + 1) := by
  have hlt : k % (ic + 1) < ic + 1 := Nat.mod_lt k (by omega)
  by_cases hend : k % (ic + 1) = ic
  · rw [if_pos (by omega)]
    rw [Nat.add_mod, hend]
    rcases Nat.eq_zero_or_pos ic with hz | hz
    · subst hz
      simp
    · rw [Nat.mod_eq_of_lt (show 1 < ic + 1 by omega)]
      simp
  · rw [if_neg (by omega)]
    rcases Nat.eq_zero_or_pos ic with hz | hz
    · exfalso
      subst hz
      simp [Nat.mod_one] at hend
    · rw [Nat.add_mod, Nat.mod_eq_of_lt (show 1 < ic + 1 by omega),
        Nat.mod_eq_of_lt (show k % (ic + 1) + 1 < ic + 1 by omega)]

/-- A hop index is inside the loop iff it is below the total hop count. -/
theorem hop_lt_iff (p : HFTNNProperties) (len k : ℕ) (hhop : 0 < p.dftSize / 2)
    (hlen : 1 ≤ len) :
    k * (p.dftSize / 2) < len ↔ k < totalHops p len := by
  unfold totalHops
  constructor
  · intro h
    have : k ≤ (len - 1) / (p.dftSize / 2) :=
      (Nat.le_div_iff_mul_le hhop).mpr (by omega)
    omega
  · intro h
    have : k ≤ (len - 1) / (p.dftSize / 2) := by omega
    have := (Nat.le_div_iff_mul_le hhop).mp this
    omega

/-- Full characterization of the chunking loop from hop index `k` on: it
returns exactly the forward-core frames of the chunks at the hop offsets
`t ≡ 0 (mod interpolatedChunks + 1)`. -/
theorem chunkLoop_spec (K : FFTKernel) (p : HFTNNProperties) (mult s : List JsVal)
    (hpow : isPowerOfTwo p.dftSize = true) (hlen : p.dftSize ≤ s.length) :
    ∀ (d k : ℕ), totalHops p s.length - k = d →
      chunkLoop K p mult s (k * (p.dftSize / 2)) (k % (p.interpolatedChunks + 1))
        = .ok (((List.range' k (totalHops p s.length - k)).filter
              (fun t => t % (p.interpolatedChunks + 1) = 0)).map
            (fun t => (hftnnForwardCore K (mkChunk s (t * (p.dftSize / 2)) p.dftSize) p
              (some mult)).1)) := by
  have hd : 1 < p.dftSize := isPowerOfTwo_one_lt hpow
  have hhop : 0 < p.dftSize / 2 := by omega
  have hlen1 : 1 ≤ s.length := by omega
  intro d
  induction d using Nat.strong_induction_on with
  | _ d ih =>
    intro k hk
    rcases Nat.eq_zero_or_pos d with hz | hz
    · subst hz
      have hko : ¬(k < totalHops p s.length) := by omega
      have hguard : ¬(k * (p.dftSize / 2) < s.length ∧ 0 < p.dftSize / 2) := by
        rintro ⟨h1, -⟩
        exact hko ((hop_lt_iff p s.length k hhop hlen1).mp h1)
      rw [chunkLoop, dif_neg hguard, hk]
      simp
    · have hkT : k < totalHops p s.length := by omega
      have hik : k * (p.dftSize / 2) < s.length :=
        (hop_lt_iff p s.length k hhop hlen1).mpr hkT
      have hdead : ¬(s.length + p.dftSize / 2 ≤ k * (p.dftSize / 2)) := by omega
      have hnext : k * (p.dftSize / 2) + p.dftSize / 2 = (k + 1) * (p.dftSize / 2) := by
        ring
      have hrec : chunkLoop K p mult s ((k + 1) * (p.dftSize / 2))
          ((k + 1) % (p.interpolatedChunks + 1))
          = .ok (((List.range' (k + 1) (d - 1)).filter
                (fun t => t % (p.interpolatedChunks + 1) = 0)).map
              (fun t => (hftnnForwardCore K (mkChunk s (t * (p.dftSize / 2)) p.dftSize) p
                (some mult)).1)) := by
        rw [show (d - 1) = totalHops p s.length - (k + 1) by omega]
        exact ih (d - 1) (by omega) (k + 1) (by omega)
      rw [chunkLoop, dif_pos ⟨hik, hhop⟩, hk]
      rw [show d = (d - 1) + 1 by omega, List.range'_succ, List.filter_cons]
      by_cases hj : k % (p.interpolatedChunks + 1) = 0
      · rw [if_pos (Or.inl hj)]
        simp only [hftnnForwardChecked_chunk_ok K p mult s _ hpow, hnext, nextSkip_eq,
          hrec]
        rw [if_pos (by simp [hj])]
        simp [List.map_cons]
      · have hcond : ¬(k % (p.interpolatedChunks + 1) = 0
            ∨ s.length + p.dftSize / 2 ≤ k * (p.dftSize / 2)) := by
          rintro (h | h)
          · exact hj h
          · exact hdead h
        rw [if_neg hcond, hnext, nextSkip_eq, hrec]
        rw [if_neg (by simp [hj])]

theorem length_filter_lt_of_not {α : Type} (l : List α) (q : α → Bool) (x : α)
    (hx : x ∈ l) (hqx : q x = false) : (l.filter q).length < l.length := by
  induction l with
  | nil => cases hx
  | cons a as ih =>
    rw [List.filter_cons]
    rcases List.mem_cons.mp hx with h | h
    · subst h
      rw [if_neg (by rw [hqx]; exact Bool.false_ne_true)]
      have := List.length_filter_le q as
      simp only [List.length_cons]
      omega
    · by_cases hqa : q a = true
      · rw [if_pos hqa]
        have := ih h
        simp only [List.length_cons]
        omega
      · rw [if_neg hqa]
        have := ih h
        simp only [List.length_cons]
        omega

/-- Claim C5: for a signal with `length(signal) ≥ dftSize`, the second
disjunct of the loop's processing condition never fires (the loop equals
its `j == 0`-only variant at every state); a frame is processed and
appended exactly at every `(interpolatedChunks + 1)`-th hop offset starting
at offset 0; and the number of returned frames is strictly fewer than the
total hop count whenever `interpolatedChunks > 0`. -/
theorem chunker_skip_policy (K : FFTKernel) (p : HFTNNProperties) (mult s : List JsVal)
    (hp : ValidProps p) (hlen : p.dftSize ≤ s.length) :
    (∀ i j, chunkLoop K p mult s i j = chunkLoopNoLateGuard K p mult s i j)
      ∧ ∃ frames, hftnnForwardTemporal K s p = .ok (frames, s)
          ∧ frames = ((List.range (totalHops p s.length)).filter
                (fun t => t % (p.interpolatedChunks + 1) = 0)).map
              (fun t => (hftnnForwardCore K (mkChunk s (t * (p.dftSize / 2)) p.dftSize) p
                (some (cosineWindow p.dftSize))).1)
          ∧ frames.length = ((List.range (totalHops p s.length)).filter
              (fun t => t % (p.interpolatedChunks + 1) = 0)).length
          ∧ (0 < p.interpolatedChunks → frames.length < totalHops p s.length) := by
  obtain ⟨-, -, -, -, hpow⟩ := hp
  have hd : 1 < p.dftSize := isPowerOfTwo_one_lt hpow
  have hhop : 0 < p.dftSize / 2 := by omega
  constructor
  · intro i j
    exact chunkLoop_eq_noLateGuard K p mult s (s.length - i) i j rfl
  · have hspec := chunkLoop_spec K p (cosineWindow p.dftSize) s hpow hlen
      (totalHops p s.length) 0 (by omega)
    simp only [Nat.zero_mul, Nat.zero_mod, Nat.sub_zero, ← List.range_eq_range']
      at hspec
    refine ⟨_, ?_, rfl, ?_, ?_⟩
    · rw [hftnnForwardTemporal, if_neg (not_lt.mpr hlen), hspec]
    · rw [List.length_map]
    · intro hic
      rw [List.length_map]
      have hT2 : 2 ≤ totalHops p s.length := by
        unfold totalHops
        have hhlt : p.dftSize / 2 < p.dftSize := Nat.div_lt_self (by omega) (by omega)
        have h1 : 1 ≤ (s.length - 1) / (p.dftSize / 2) :=
          (Nat.le_div_iff_mul_le hhop).mpr (by omega)
        omega
      have hlt := length_filter_lt_of_not (List.range (totalHops p s.length))
        (fun t => decide (t % (p.interpolatedChunks + 1) = 0)) 1
        (List.mem_range.mpr (by omega))
        (by simp [Nat.mod_eq_of_lt (show 1 < p.interpolatedChunks + 1 by omega)])
      rw [List.length_range] at hlt
      exact hlt

theorem validProps_pInterp : ValidProps pInterp :=
  ⟨by norm_num [pInterp], by norm_num [pInterp], by norm_num [pInterp],
    by norm_num [pInterp], by decide⟩

/-- Witness for C5 on an 8-sample signal with `dftSize = 4` and
`interpolatedChunks = 1`: the loop is equivalent to its `j == 0`-only
variant and returns strictly fewer frames than the hop count. -/
theorem chunker_skip_policy_witness :
    ValidProps pInterp
      ∧ pInterp.dftSize ≤ (List.replicate 8 ((some 0) : JsVal)).length
      ∧ (∀ i j, chunkLoop zeroKernel pInterp [] (List.replicate 8 (some 0)) i j
          = chunkLoopNoLateGuard zeroKernel pInterp [] (List.replicate 8 (some 0)) i j)
      ∧ ∃ frames, hftnnForwardTemporal zeroKernel (List.replicate 8 (some 0)) pInterp
            = .ok (frames, List.replicate 8 (some 0))
          ∧ frames.length < totalHops pInterp (List.replicate 8 ((some 0) : JsVal)).length := by
  have hv := validProps_pInterp
  have hl : pInterp.dftSize ≤ (List.replicate 8 ((some 0) : JsVal)).length := by
    norm_num [show pInterp.dftSize = 4 from rfl]
  obtain ⟨h1, frames, h2, h3, h4, h5⟩ :=
    chunker_skip_policy zeroKernel pInterp [] (List.replicate 8 (some 0)) hv hl
  exact ⟨hv, hl, h1, frames, h2, h5 Nat.one_pos⟩
